import Mathlib

/-
Shallow embedding of `src/src/ast/writing/writer.ts` (the rendering engine of
solc-typed-ast): the `SrcDesc` intermediate description, the flattening
algorithm `descToSourceString`, the description builder `desc`, the default
`ASTNodeWriter.writeWhole` wrapping, the top-level `write` entry point and the
`YulWriter.write` IR pipeline.

Modelling conventions:
  - A JS string is a list of characters (`Str`); its byte length is the length
    of its UTF-8 encoding, computed by an explicit encoder (`charUtf8`).
  - An `ASTNode` is opaque to the engine beyond identity and runtime type
    (writer.ts only reads `arg.constructor` and uses nodes as map keys), so it
    is modelled as an identity tag plus a constructor tag.
  - A JS `Map` used as the source map is modelled as an insertion-ordered
    association list; `Map.set` updates an existing key in place or appends.
  - Writer strategies are external plug-ins; each is modelled as a pair of
    functions from nodes to descriptions (`writeInner` / `writeWhole`); the
    base-class default body of `writeWhole` (writer.ts:65-67) is
    `defaultWriteWhole`.
  - Thrown `Error`s become an `Except WriteError` result; each error carries
    the offending value, from which the diagnostic message text
    (`arg.print()`, `JSON.stringify(node)`) is derived in the source.
-/

namespace SolcWriter

/-- A JS string value, as a sequence of characters. -/
abbrev Str := List Char

/-- An AST node, opaque to the engine beyond identity (`id`) and runtime
constructor (`ctor`), mirroring how writer.ts uses `ASTNode` values: as `Map`
keys and as the argument of `this.mapping.get(arg.constructor)`. -/
structure ASTNode where
  id : Nat
  ctor : Nat
deriving DecidableEq

/-- A Yul IR node: a string type tag (`node.nodeType`, writer.ts:80) plus an
opaque payload standing for the rest of the node's JSON data. -/
structure YulNode where
  nodeType : Str
  payload : Nat
deriving DecidableEq

/-- UTF-8 encoding of one character (byte values as naturals). -/
def charUtf8 (c : Char) : List Nat :=
  let n := c.toNat
  if n < 0x80 then
    [n]
  else if n < 0x800 then
    [0xC0 ||| (n >>> 6), 0x80 ||| (n &&& 0x3F)]
  else if n < 0x10000 then
    [0xE0 ||| (n >>> 12), 0x80 ||| ((n >>> 6) &&& 0x3F), 0x80 ||| (n &&& 0x3F)]
  else
    [0xF0 ||| (n >>> 18), 0x80 ||| ((n >>> 12) &&& 0x3F),
      0x80 ||| ((n >>> 6) &&& 0x3F), 0x80 ||| (n &&& 0x3F)]

/-- UTF-8 byte sequence of a string. -/
def strBytes : Str → List Nat
  | [] => []
  | c :: cs => charUtf8 c ++ strBytes cs

/-- Modelled from the spec: `strByteLen` is imported from `src/misc`, which is
not part of the source under study; per spec section 6 it is the boundary
function returning a text's length in the encoding's byte units (UTF-8). -/
def strByteLen (s : Str) : Nat :=
  (strBytes s).length

/-- The `SrcDesc` intermediate description (writer.ts:27):
`SrcDesc ::= (string | [ASTNode, SrcDesc])*`, an ordered sequence whose
elements are either a literal text fragment or a node-association entry
pairing a node with a nested description. -/
inductive SrcDesc where
  | nil : SrcDesc
  | consText : Str → SrcDesc → SrcDesc
  | consAssoc : ASTNode → SrcDesc → SrcDesc → SrcDesc
deriving DecidableEq

/-- Sequence concatenation on descriptions (the effect of
`result.push(...elements)` at the top level). -/
def SrcDesc.append : SrcDesc → SrcDesc → SrcDesc
  | .nil, d => d
  | .consText s rest, d => .consText s (rest.append d)
  | .consAssoc n nested rest, d => .consAssoc n nested (rest.append d)

/-- The source map `SrcRangeMap = Map<ASTNode, [number, number]>`
(writer.ts:10), modelled as an insertion-ordered association list from node to
(start byte offset, byte length). -/
abbrev SrcRangeMap := List (ASTNode × Nat × Nat)

/-- Lookup in the source map (`Map.get`). -/
def mapGet : SrcRangeMap → ASTNode → Option (Nat × Nat)
  | [], _ => none
  | (k, r) :: rest, n => if k = n then some r else mapGet rest n

/-- Insertion into the source map with JS `Map.set` semantics: an existing
key's value is updated in place (keeping its position), a new key is appended
at the end. -/
def mapSet : SrcRangeMap → ASTNode → Nat × Nat → SrcRangeMap
  | [], n, r => [(n, r)]
  | (k, r0) :: rest, n, r =>
    if k = n then (k, r) :: rest else (k, r0) :: mapSet rest n r

/-- A writer strategy for one AST node type (`ASTNodeWriter`, writer.ts:33-68).
The TS class has an abstract `writeInner` and an overridable `writeWhole`;
both receive the `ASTWriter` to recurse through, which is fixed ambient
context here, so each is a function from the node to a description. -/
structure ASTNodeWriter where
  writeInner : ASTNode → SrcDesc
  writeWhole : ASTNode → SrcDesc

/-- The base-class default body of `writeWhole` (writer.ts:65-67):
`return [[node, this.writeInner(node, writer)]]` — wrap the inner description
in a single node-association entry, adding no text. -/
def defaultWriteWhole (writeInner : ASTNode → SrcDesc) : ASTNode → SrcDesc :=
  fun node => SrcDesc.consAssoc node (writeInner node) SrcDesc.nil

/-- The writer registry `Map<ASTNodeConstructor<ASTNode>, ASTNodeWriter>`
(writer.ts:93), keyed by runtime constructor tag. -/
abbrev Registry := Nat → Option ASTNodeWriter

/-- The Yul registry `Map<string, YulNodeWriter>` (writer.ts:71), keyed by the
node's string type tag; each strategy is an opaque text producer. -/
abbrev YulRegistry := Str → Option (YulNode → Str)

/-- One argument of the variadic builder `desc(...args: DescArgs)`
(writer.ts:11): `string | ASTNode | undefined | null`, plus `other` for a
runtime value outside that type (the `InvalidArgumentError` path,
writer.ts:161-163), carrying its JSON dump. -/
inductive DescArg where
  | null : DescArg
  | undef : DescArg
  | str : Str → DescArg
  | node : ASTNode → DescArg
  | other : Str → DescArg
deriving DecidableEq

/-- The fatal rendering errors (spec section 7). The source throws plain
`Error`s with distinct messages (writer.ts:88, 158, 163); each constructor
carries the offending value from which the message's diagnostic dump is
built. -/
inductive WriteError where
  | missingWriter : ASTNode → WriteError
  | invalidArgument : Str → WriteError
  | missingYulWriter : YulNode → WriteError
deriving DecidableEq

/-- The recursive `helper` closure of `descToSourceString` (writer.ts:116-131),
with its captured mutable state (`source`, `size`, `sourceMap`) passed
explicitly. A text fragment is appended to the source and advances `size` by
its byte length; a node-association entry records `start = size`, recurses
into the nested description, then sets `(start, size - start)` for the node. -/
def flattenGo : SrcDesc → Str → Nat → SrcRangeMap → Str × Nat × SrcRangeMap
  | .nil, source, size, m => (source, size, m)
  | .consText s rest, source, size, m =>
    flattenGo rest (source ++ s) (size + strByteLen s) m
  | .consAssoc node nested rest, source, size, m =>
    let r := flattenGo nested source size m
    flattenGo rest r.1 r.2.1 (mapSet r.2.2 node (size, r.2.1 - size))

/-- `ASTWriter.descToSourceString` (writer.ts:112-136): flatten a description
starting from an empty source and zero size, returning the generated text and
the (possibly pre-populated) source map after mutation. -/
def descToSourceString (d : SrcDesc) (sourceMap : SrcRangeMap) : Str × SrcRangeMap :=
  ((flattenGo d [] 0 sourceMap).1, (flattenGo d [] 0 sourceMap).2.2)

/-- The loop body of `ASTWriter.desc` for one argument (writer.ts:146-168):
null/undefined are intentionally skipped; a string is pushed; for a node the
registry is consulted by runtime constructor and the resolved strategy's
`writeWhole` result is spliced in place (`result.push(...)`); a lookup miss on
an `ASTNode` throws the missing-writer error carrying `arg.print()`. A value
that is not an `ASTNode` cannot have an `ASTNodeConstructor` as its runtime
constructor, so for it the lookup at writer.ts:154 misses and the
`arg instanceof ASTNode` test at writer.ts:157 fails, reaching the
invalid-argument throw at writer.ts:163 with the value's JSON dump. -/
def descStep (mapping : Registry) (arg : DescArg) (acc : SrcDesc) :
    Except WriteError SrcDesc :=
  match arg with
  | .null => .ok acc
  | .undef => .ok acc
  | .str s => .ok (acc.append (SrcDesc.consText s SrcDesc.nil))
  | .node n =>
    match mapping n.ctor with
    | some w => .ok (acc.append (w.writeWhole n))
    | none => .error (.missingWriter n)
  | .other dump => .error (.invalidArgument dump)

/-- The `for (const arg of args)` loop of `ASTWriter.desc` (writer.ts:146-168)
over the accumulated `result`, stopping at the first thrown error. -/
def descGo (mapping : Registry) : List DescArg → SrcDesc → Except WriteError SrcDesc
  | [], acc => .ok acc
  | a :: rest, acc =>
    match descStep mapping a acc with
    | .ok acc2 => descGo mapping rest acc2
    | .error e => .error e

/-- `ASTWriter.desc(...args)` (writer.ts:143-171): build a single flat
description from the argument list, starting from an empty `result`. -/
def desc (mapping : Registry) (args : List DescArg) : Except WriteError SrcDesc :=
  descGo mapping args SrcDesc.nil

/-- `ASTWriter.write(node, sourceMap)` (writer.ts:179-183): build the
description for the single node argument, then flatten it into text while
populating the given source map. -/
def write (mapping : Registry) (node : ASTNode) (sourceMap : SrcRangeMap) :
    Except WriteError (Str × SrcRangeMap) :=
  match desc mapping [DescArg.node node] with
  | .ok d => .ok (descToSourceString d sourceMap)
  | .error e => .error e

/-- `YulWriter.write(node)` (writer.ts:79-89): resolve a strategy by the
node's string type tag and return its text; a lookup miss throws carrying the
JSON dump of the full node. -/
def yulWrite (mapping : YulRegistry) (node : YulNode) : Except WriteError Str :=
  match mapping node.nodeType with
  | some w => .ok (w node)
  | none => .error (.missingYulWriter node)

/-- Specification-side: the text a description flattens to, independent of any
state (the concatenation of all fragments in depth-first order). -/
def flatText : SrcDesc → Str
  | .nil => []
  | .consText s rest => s ++ flatText rest
  | .consAssoc _ nested rest => flatText nested ++ flatText rest

/-- Specification-side: the byte length of a description's flattened text. -/
def descByteLen (d : SrcDesc) : Nat :=
  strByteLen (flatText d)

/-- Specification-side: all node-association entries of a description (at
every depth), each with the (start, length) range the flattening pass records
for it when flattening begins at byte offset `off`, listed in the order in
which `sourceMap.set` is called (children before their parent, siblings left
to right). -/
def occs : SrcDesc → Nat → List (ASTNode × SrcDesc × Nat × Nat)
  | .nil, _ => []
  | .consText s rest, off => occs rest (off + strByteLen s)
  | .consAssoc n nested rest, off =>
    occs nested off ++ [(n, nested, off, descByteLen nested)]
      ++ occs rest (off + descByteLen nested)

/-- Specification-side: only the direct (top-level) node-association entries
of a description — the sibling entries of one nesting level — with their
recorded ranges, when flattening begins at byte offset `off`. -/
def topOccs : SrcDesc → Nat → List (ASTNode × Nat × Nat)
  | .nil, _ => []
  | .consText s rest, off => topOccs rest (off + strByteLen s)
  | .consAssoc n nested rest, off =>
    (n, off, descByteLen nested) :: topOccs rest (off + descByteLen nested)

/-- Folding `Map.set` over a list of recorded entries. -/
def mapSetAll (m : SrcRangeMap) (os : List (ASTNode × SrcDesc × Nat × Nat)) :
    SrcRangeMap :=
  os.foldl (fun acc o => mapSet acc o.1 (o.2.2.1, o.2.2.2)) m

/-- Whether a builder argument is present (not skipped): null and undefined
contribute nothing (writer.ts:147-150). -/
def DescArg.isPresent : DescArg → Bool
  | .null => false
  | .undef => false
  | _ => true

/-- Example node `A` of the spec's end-to-end example. -/
def nodeA : ASTNode := ⟨1, 1⟩

/-- Example node `B` of the spec's end-to-end example. -/
def nodeB : ASTNode := ⟨2, 1⟩

/-- Example node `X` of the spec's end-to-end example. -/
def nodeX : ASTNode := ⟨3, 2⟩

/-- Description `[A, ["foo"]]`'s nested part: `["foo"]`. -/
def descFoo : SrcDesc := SrcDesc.consText "foo".data SrcDesc.nil

/-- Description `[B, ["bar"]]`'s nested part: `["bar"]`. -/
def descBar : SrcDesc := SrcDesc.consText "bar".data SrcDesc.nil

/-- The nested description of `X`: `[[A, ["foo"]], " + ", [B, ["bar"]]]`. -/
def innerX : SrcDesc :=
  SrcDesc.consAssoc nodeA descFoo
    (SrcDesc.consText " + ".data (SrcDesc.consAssoc nodeB descBar SrcDesc.nil))

/-- The end-to-end example description `[[X, [[A, ["foo"]], " + ", [B, ["bar"]]]]]`. -/
def exDesc : SrcDesc := SrcDesc.consAssoc nodeX innerX SrcDesc.nil

/-- Example node for the multi-byte test. -/
def nodeE : ASTNode := ⟨4, 3⟩

/-- Example strategy inner-description function: always emit the text `bar`. -/
def exInnerFn : ASTNode → SrcDesc :=
  fun _ => SrcDesc.consText "bar".data SrcDesc.nil

/-- Example writer strategy using the base-class default `writeWhole`. -/
def exWriter : ASTNodeWriter := ⟨exInnerFn, defaultWriteWhole exInnerFn⟩

/-- Example registry with the example strategy registered for constructor 1. -/
def exMapping : Registry := fun c => if c = 1 then some exWriter else none

theorem strBytes_append (a b : Str) : strBytes (a ++ b) = strBytes a ++ strBytes b := by
  induction a with
  | nil => simp [strBytes]
  | cons c cs ih => simp [strBytes, ih]

theorem strByteLen_append (a b : Str) :
    strByteLen (a ++ b) = strByteLen a + strByteLen b := by
  simp [strByteLen, strBytes_append]

theorem descByteLen_consText (s : Str) (rest : SrcDesc) :
    descByteLen (SrcDesc.consText s rest) = strByteLen s + descByteLen rest := by
  simp [descByteLen, flatText, strByteLen_append]

theorem descByteLen_consAssoc (n : ASTNode) (nested rest : SrcDesc) :
    descByteLen (SrcDesc.consAssoc n nested rest)
      = descByteLen nested + descByteLen rest := by
  simp [descByteLen, flatText, strByteLen_append]

theorem mapSetAll_append (m : SrcRangeMap) (os os2 : List (ASTNode × SrcDesc × Nat × Nat)) :
    mapSetAll m (os ++ os2) = mapSetAll (mapSetAll m os) os2 := by
  simp [mapSetAll, List.foldl_append]

/-- Characterization of the flattening loop: its text output is the initial
source followed by the description's flattened text, its size counter advances
by the description's byte length, and the source map receives exactly the
recorded entries of `occs`, folded in call order, with offsets based at the
initial size. -/
theorem flattenGo_eq (d : SrcDesc) :
    ∀ (src : Str) (sz : Nat) (m : SrcRangeMap),
      flattenGo d src sz m
        = (src ++ flatText d, sz + descByteLen d, mapSetAll m (occs d sz)) := by
  induction d with
  | nil =>
    intro src sz m
    simp [flattenGo, flatText, descByteLen, strByteLen, strBytes, occs, mapSetAll]
  | consText s rest ih =>
    intro src sz m
    simp [flattenGo, flatText, occs, ih, descByteLen_consText, Nat.add_assoc]
  | consAssoc n nested rest ih1 ih2 =>
    intro src sz m
    simp [flattenGo, ih1, ih2, occs, flatText, descByteLen_consAssoc,
      mapSetAll_append, Nat.add_sub_cancel_left, List.append_assoc,
      Nat.add_assoc, mapSetAll]

/-- Characterization of `descToSourceString` in terms of the pure
specification functions. -/
theorem descToSourceString_eq (d : SrcDesc) (m : SrcRangeMap) :
    descToSourceString d m = (flatText d, mapSetAll m (occs d 0)) := by
  simp [descToSourceString, flattenGo_eq]

theorem take_append_left {α : Type} (A B : List α) (l : Nat) (h : l ≤ A.length) :
    (A ++ B).take l = A.take l := by
  induction A generalizing l with
  | nil =>
    cases l with
    | zero => simp
    | succ k => simp at h
  | cons x xs ih =>
    cases l with
    | zero => simp
    | succ k =>
      simp only [List.cons_append, List.take_succ_cons]
      rw [ih k (by simpa using h)]

theorem drop_append_left {α : Type} (A B : List α) (k : Nat) (h : A.length ≤ k) :
    (A ++ B).drop k = B.drop (k - A.length) := by
  induction A generalizing k with
  | nil => simp
  | cons x xs ih =>
    cases k with
    | zero => simp at h
    | succ j =>
      simp only [List.cons_append, List.drop_succ_cons, List.length_cons]
      rw [ih j (by simpa using h)]
      simp [Nat.succ_sub_succ]

theorem drop_append_inside {α : Type} (A B : List α) (k : Nat) (h : k ≤ A.length) :
    (A ++ B).drop k = A.drop k ++ B := by
  induction A generalizing k with
  | nil =>
    have hk : k = 0 := Nat.le_zero.mp (by simpa using h)
    subst hk
    simp
  | cons x xs ih =>
    cases k with
    | zero => simp
    | succ j =>
      simp only [List.cons_append, List.drop_succ_cons]
      exact ih j (by simpa using h)

/-- Slicing entirely inside the left part of an appended byte list. -/
theorem slice_append_left {α : Type} (A B : List α) (s l : Nat)
    (h : s + l ≤ A.length) :
    ((A ++ B).drop s).take l = (A.drop s).take l := by
  rw [drop_append_inside A B s (Nat.le_trans (Nat.le_add_right s l) h)]
  exact take_append_left (A.drop s) B l
    (by simp [List.length_drop]; omega)

/-- Slicing entirely inside the right part of an appended byte list. -/
theorem slice_append_right {α : Type} (A B : List α) (s l : Nat)
    (h : A.length ≤ s) :
    ((A ++ B).drop s).take l = (B.drop (s - A.length)).take l := by
  rw [drop_append_left A B s h]

/-- Every recorded entry has the byte length of its nested description's
flattened text, and its range lies within the span
`[off, off + descByteLen d)` of the enclosing description. -/
theorem occs_bounds (d : SrcDesc) :
    ∀ (off : Nat) (n : ASTNode) (nested : SrcDesc) (s l : Nat),
      (n, nested, s, l) ∈ occs d off →
        l = descByteLen nested ∧ off ≤ s ∧ s + l ≤ off + descByteLen d := by
  induction d with
  | nil => intro off n nested s l h; simp [occs] at h
  | consText s0 rest ih =>
    intro off n nested s l h
    simp only [occs] at h
    obtain ⟨h1, h2, h3⟩ := ih (off + strByteLen s0) n nested s l h
    refine ⟨h1, by omega, ?_⟩
    rw [descByteLen_consText]; omega
  | consAssoc n0 nested0 rest ih1 ih2 =>
    intro off n nested s l h
    simp only [occs, List.singleton_append, List.mem_append, List.mem_cons] at h
    rw [descByteLen_consAssoc]
    rcases h with (h | h | h) | h
    · obtain ⟨h1, h2, h3⟩ := ih1 off n nested s l h
      exact ⟨h1, h2, by omega⟩
    · simp only [Prod.mk.injEq] at h
      obtain ⟨e1, e2, e3, e4⟩ := h
      subst e2; subst e3; subst e4
      exact ⟨rfl, Nat.le_refl _, by omega⟩
    · simp at h
    · obtain ⟨h1, h2, h3⟩ := ih2 (off + descByteLen nested0) n nested s l h
      exact ⟨h1, by omega, by omega⟩

/-- Exact slice property at the level of `occs`: the byte slice of the whole
description's flattened text at a recorded entry's range (rebased by the
starting offset) is exactly the flattened text of that entry's nested
description. -/
theorem occs_slice (d : SrcDesc) :
    ∀ (off : Nat) (n : ASTNode) (nested : SrcDesc) (s l : Nat),
      (n, nested, s, l) ∈ occs d off →
        ((strBytes (flatText d)).drop (s - off)).take l
          = strBytes (flatText nested) := by
  induction d with
  | nil => intro off n nested s l h; simp [occs] at h
  | consText s0 rest ih =>
    intro off n nested s l h
    simp only [occs] at h
    obtain ⟨-, h2, -⟩ := occs_bounds rest (off + strByteLen s0) n nested s l h
    have hA : (strBytes s0).length = strByteLen s0 := rfl
    rw [show flatText (SrcDesc.consText s0 rest) = s0 ++ flatText rest from rfl,
      strBytes_append, slice_append_right _ _ _ _ (by omega), hA,
      Nat.sub_sub]
    exact ih (off + strByteLen s0) n nested s l h
  | consAssoc n0 nested0 rest ih1 ih2 =>
    intro off n nested s l h
    simp only [occs, List.singleton_append, List.mem_append, List.mem_cons] at h
    have hft : flatText (SrcDesc.consAssoc n0 nested0 rest)
        = flatText nested0 ++ flatText rest := rfl
    have hA : (strBytes (flatText nested0)).length = descByteLen nested0 := rfl
    rcases h with (h | h | h) | h
    · obtain ⟨-, h2, h3⟩ := occs_bounds nested0 off n nested s l h
      rw [hft, strBytes_append, slice_append_left _ _ _ _ (by omega)]
      exact ih1 off n nested s l h
    · simp only [Prod.mk.injEq] at h
      obtain ⟨-, e2, e3, e4⟩ := h
      subst e2; subst e3; subst e4
      rw [hft, strBytes_append, Nat.sub_self, List.drop_zero,
        take_append_left _ _ _ (by omega), ← hA, List.take_length]
    · simp at h
    · obtain ⟨-, h2, -⟩ := occs_bounds rest (off + descByteLen nested0) n nested s l h
      rw [hft, strBytes_append, slice_append_right _ _ _ _ (by omega), hA,
        Nat.sub_sub]
      exact ih2 (off + descByteLen nested0) n nested s l h

/-- Every direct (sibling) entry of a description starts at or after the
offset at which flattening of the description begins. -/
theorem topOccs_lb (d : SrcDesc) :
    ∀ (off : Nat) (o : ASTNode × Nat × Nat), o ∈ topOccs d off → off ≤ o.2.1 := by
  induction d with
  | nil => intro off o h; simp [topOccs] at h
  | consText s0 rest ih =>
    intro off o h
    simp only [topOccs] at h
    have := ih (off + strByteLen s0) o h
    omega
  | consAssoc n0 nested0 rest ih1 ih2 =>
    intro off o h
    simp only [topOccs, List.mem_cons] at h
    rcases h with h | h
    · subst h; exact Nat.le_refl _
    · have := ih2 (off + descByteLen nested0) o h
      omega

/-- Sibling entries of a description are laid out left to right: each one's
range ends at or before the next one's start (so no two sibling ranges
overlap). -/
theorem topOccs_pairwise (d : SrcDesc) :
    ∀ (off : Nat),
      List.Pairwise (fun a b : ASTNode × Nat × Nat => a.2.1 + a.2.2 ≤ b.2.1)
        (topOccs d off) := by
  induction d with
  | nil => intro off; simp [topOccs]
  | consText s0 rest ih => intro off; simpa [topOccs] using ih (off + strByteLen s0)
  | consAssoc n0 nested0 rest ih1 ih2 =>
    intro off
    simp only [topOccs]
    refine List.Pairwise.cons ?_ (ih2 (off + descByteLen nested0))
    intro b hb
    have := topOccs_lb rest (off + descByteLen nested0) b hb
    simpa using this

/-- Setting one key leaves lookups of any other key unchanged. -/
theorem mapGet_mapSet_ne (m : SrcRangeMap) (k n : ASTNode) (r : Nat × Nat)
    (h : k ≠ n) : mapGet (mapSet m k r) n = mapGet m n := by
  induction m with
  | nil => simp [mapSet, mapGet, h]
  | cons e rest ih =>
    obtain ⟨k0, r0⟩ := e
    by_cases hk : k0 = k
    · subst hk; simp [mapSet, mapGet, h]
    · simp only [mapSet, mapGet, if_neg hk]
      by_cases hn : k0 = n
      · simp [hn]
      · simp [hn, ih]

/-- Folding `Map.set` over entries none of which concerns key `n` leaves the
lookup of `n` unchanged. -/
theorem mapGet_mapSetAll_ne (os : List (ASTNode × SrcDesc × Nat × Nat)) :
    ∀ (m : SrcRangeMap) (n : ASTNode), (∀ o ∈ os, o.1 ≠ n) →
      mapGet (mapSetAll m os) n = mapGet m n := by
  induction os with
  | nil => intro m n _; simp [mapSetAll]
  | cons o rest ih =>
    intro m n h
    have hstep : mapSetAll m (o :: rest)
        = mapSetAll (mapSet m o.1 (o.2.2.1, o.2.2.2)) rest := rfl
    rw [hstep, ih _ n (fun o2 h2 => h o2 (List.mem_cons_of_mem o h2)),
      mapGet_mapSet_ne _ _ _ _ (h o (List.mem_cons_self o rest))]

/-- Skipped arguments (null/undefined) do not affect the builder loop: running
it on the argument list equals running it on the list with the absent
arguments filtered out. -/
theorem descGo_filter (mapping : Registry) (args : List DescArg) :
    ∀ (acc : SrcDesc),
      descGo mapping args acc
        = descGo mapping (args.filter DescArg.isPresent) acc := by
  induction args with
  | nil => intro acc; simp [descGo]
  | cons a rest ih =>
    intro acc
    cases a with
    | null => simpa [descGo, descStep, List.filter, DescArg.isPresent] using ih acc
    | undef => simpa [descGo, descStep, List.filter, DescArg.isPresent] using ih acc
    | str s => simp [descGo, descStep, List.filter, DescArg.isPresent, ih]
    | node n =>
      simp only [List.filter, DescArg.isPresent, descGo, descStep]
      cases mapping n.ctor with
      | some w => simp [ih]
      | none => simp
    | other dump => simp [descGo, descStep, List.filter, DescArg.isPresent]

/-- C1: flattening records exactly the ranges of `occs` in the source map
(folded in call order over the given map), and for every node-association
entry of the description with recorded range `(s, l)`, the byte substring of
the generated text at byte offset `s` of byte length `l` equals exactly the
text produced by flattening that entry's nested description alone with a
fresh map. -/
theorem claim_c1 (d : SrcDesc) (m0 : SrcRangeMap) :
    (descToSourceString d m0).2 = mapSetAll m0 (occs d 0)
    ∧ ∀ (n : ASTNode) (nested : SrcDesc) (s l : Nat),
        (n, nested, s, l) ∈ occs d 0 →
          ((strBytes (descToSourceString d m0).1).drop s).take l
            = strBytes (descToSourceString nested []).1 := by
  refine ⟨by simp [descToSourceString_eq], ?_⟩
  intro n nested s l h
  have hs := occs_slice d 0 n nested s l h
  simpa [descToSourceString_eq] using hs

/-- Witness for C1 at the end-to-end example: the slice at `B`'s recorded
range `(6, 3)` of `"foo + bar"` is the flattening of `["bar"]` alone. -/
theorem claim_c1_witness :
    ((strBytes (descToSourceString exDesc []).1).drop 6).take 3
      = strBytes (descToSourceString descBar []).1 :=
  (claim_c1 exDesc []).2 nodeB descBar 6 3 (by decide)

/-- C2: ranges form a tree isomorphic to the association entries: every entry
recorded for a description carries the byte length of its nested description,
every entry nested (directly or transitively) inside it has a range fully
contained in its range, and sibling entries at any one nesting level have
pairwise non-overlapping ranges (each ends at or before the next begins). -/
theorem claim_c2 (d : SrcDesc) (off : Nat) :
    (∀ (n : ASTNode) (nested : SrcDesc) (s l : Nat),
        (n, nested, s, l) ∈ occs d off →
          l = descByteLen nested
          ∧ (∀ (n2 : ASTNode) (nd2 : SrcDesc) (s2 l2 : Nat),
              (n2, nd2, s2, l2) ∈ occs nested s → s ≤ s2 ∧ s2 + l2 ≤ s + l)
          ∧ List.Pairwise
              (fun a b : ASTNode × Nat × Nat => a.2.1 + a.2.2 ≤ b.2.1)
              (topOccs nested s))
    ∧ List.Pairwise (fun a b : ASTNode × Nat × Nat => a.2.1 + a.2.2 ≤ b.2.1)
        (topOccs d off) := by
  refine ⟨?_, topOccs_pairwise d off⟩
  intro n nested s l h
  obtain ⟨h1, -, -⟩ := occs_bounds d off n nested s l h
  refine ⟨h1, ?_, topOccs_pairwise nested s⟩
  intro n2 nd2 s2 l2 h2
  obtain ⟨-, hb2, hb3⟩ := occs_bounds nested s n2 nd2 s2 l2 h2
  exact ⟨hb2, by omega⟩

/-- Witness for C2 at the end-to-end example: `B`'s entry `(6, 3)`, nested
inside `X`'s entry `(0, 9)`, is contained in it. -/
theorem claim_c2_witness : (0 : Nat) ≤ 6 ∧ 6 + 3 ≤ 0 + 9 := by
  have h := (claim_c2 exDesc 0).1 nodeX innerX 0 9 (by decide)
  exact h.2.1 nodeB descBar 6 3 (by decide)

/-- C3: flattening `[[X, [[A, ["foo"]], " + ", [B, ["bar"]]]]]` with an empty
source map returns the text `"foo + bar"` and populates the map with exactly
`A -> (0, 3)`, `B -> (6, 3)`, `X -> (0, 9)`. -/
theorem claim_c3 :
    descToSourceString exDesc []
      = ("foo + bar".data, [(nodeA, 0, 3), (nodeB, 6, 3), (nodeX, 0, 9)]) := by
  decide

/-- C4: a text fragment advances the running size counter by its length in
UTF-8 byte units, not its character count: the counter advances by
`strByteLen`, which is the length of the fragment's byte encoding; a fragment
consisting of the single 3-byte-encoded character `€` advances the counter by
3 although its character count is 1, so the recorded length for a node
wrapping it is 3. -/
theorem claim_c4 :
    (∀ (s : Str) (rest : SrcDesc) (src : Str) (sz : Nat) (m : SrcRangeMap),
        flattenGo (SrcDesc.consText s rest) src sz m
          = flattenGo rest (src ++ s) (sz + strByteLen s) m)
    ∧ (∀ s : Str, strByteLen s = (strBytes s).length)
    ∧ strByteLen ['€'] = 3
    ∧ List.length ['€'] = 1
    ∧ descToSourceString
        (SrcDesc.consAssoc nodeE (SrcDesc.consText ['€'] SrcDesc.nil) SrcDesc.nil) []
      = (['€'], [(nodeE, 0, 3)]) := by
  exact ⟨fun s rest src sz m => rfl, fun s => rfl, by decide, rfl, by decide⟩

/-- C5: null and undefined builder arguments contribute nothing: the builder
loop on any argument list equals the loop on the list with absent arguments
filtered out; in particular `desc(null, "a", undefined, "b")` produces the
same description as `desc("a", "b")`, namely exactly the two-fragment
description, which flattens to `"ab"` with no map entries and no spurious
empty fragments. -/
theorem claim_c5 :
    (∀ (mapping : Registry) (args : List DescArg),
        desc mapping args = desc mapping (args.filter DescArg.isPresent))
    ∧ (∀ mapping : Registry,
        desc mapping
            [DescArg.null, DescArg.str "a".data, DescArg.undef, DescArg.str "b".data]
          = desc mapping [DescArg.str "a".data, DescArg.str "b".data])
    ∧ (∀ mapping : Registry,
        desc mapping
            [DescArg.null, DescArg.str "a".data, DescArg.undef, DescArg.str "b".data]
          = .ok (SrcDesc.consText "a".data (SrcDesc.consText "b".data SrcDesc.nil)))
    ∧ descToSourceString
        (SrcDesc.consText "a".data (SrcDesc.consText "b".data SrcDesc.nil)) []
      = ("ab".data, []) := by
  exact ⟨fun mapping args => descGo_filter mapping args SrcDesc.nil,
    fun mapping => rfl, fun mapping => rfl, by decide⟩

/-- C6: a node argument whose type has a registered strategy is expanded by
the strategy's `writeWhole` and spliced in place into the result sequence;
with the default `writeWhole`, `desc(a, nodeX, b)` is the flat three-element
sequence mixing the two literal fragments with exactly one node-association
entry `[nodeX, writeInner(nodeX)]`, not a nested one-element sub-sequence. -/
theorem claim_c6 (mapping : Registry) (n : ASTNode) (w : ASTNodeWriter)
    (hw : mapping n.ctor = some w)
    (hdef : w.writeWhole = defaultWriteWhole w.writeInner) (a b : Str) :
    (∀ acc : SrcDesc,
        descStep mapping (DescArg.node n) acc = .ok (acc.append (w.writeWhole n)))
    ∧ desc mapping [DescArg.str a, DescArg.node n, DescArg.str b]
      = .ok (SrcDesc.consText a
          (SrcDesc.consAssoc n (w.writeInner n) (SrcDesc.consText b SrcDesc.nil))) := by
  constructor
  · intro acc
    simp [descStep, hw]
  · simp [desc, descGo, descStep, hw, hdef, defaultWriteWhole, SrcDesc.append]

/-- Witness for C6 with a concrete registry and strategy. -/
theorem claim_c6_witness :
    desc exMapping [DescArg.str "x".data, DescArg.node ⟨7, 1⟩, DescArg.str "y".data]
      = .ok (SrcDesc.consText "x".data
          (SrcDesc.consAssoc ⟨7, 1⟩ (SrcDesc.consText "bar".data SrcDesc.nil)
            (SrcDesc.consText "y".data SrcDesc.nil))) :=
  (claim_c6 exMapping ⟨7, 1⟩ exWriter rfl rfl "x".data "y".data).2

/-- C7: rendering a node whose runtime type has no registry entry fails with
the missing-writer error — carrying the offending node, hence its type and
printable structure — as soon as the node is encountered in the builder loop,
so `write` returns the error and no text, and the source map receives no
entry; the Yul pipeline behaves the same for a string-tag lookup miss,
carrying the full node for the diagnostic dump. -/
theorem claim_c7 (mapping : Registry) (n : ASTNode) (hm : mapping n.ctor = none)
    (ymap : YulRegistry) (yn : YulNode) (hy : ymap yn.nodeType = none) :
    (∀ (rest : List DescArg) (acc : SrcDesc),
        descGo mapping (DescArg.node n :: rest) acc
          = .error (.missingWriter n))
    ∧ (∀ m0 : SrcRangeMap, write mapping n m0 = .error (.missingWriter n))
    ∧ yulWrite ymap yn = .error (.missingYulWriter yn) := by
  refine ⟨?_, ?_, ?_⟩
  · intro rest acc
    simp [descGo, descStep, hm]
  · intro m0
    simp [write, desc, descGo, descStep, hm]
  · simp [yulWrite, hy]

/-- Witness for C7 with empty registries. -/
theorem claim_c7_witness :
    write (fun _ => none) ⟨0, 0⟩ [] = .error (.missingWriter ⟨0, 0⟩)
    ∧ yulWrite (fun _ => none) ⟨"x".data, 0⟩
      = .error (.missingYulWriter ⟨"x".data, 0⟩) := by
  have h := claim_c7 (fun _ => none) ⟨0, 0⟩ rfl (fun _ => none) ⟨"x".data, 0⟩ rfl
  exact ⟨h.2.1 [], h.2.2⟩

/-- C8: a builder argument that is neither null/undefined, nor a string, nor
a recognized node makes the loop fail with the invalid-argument error carrying
the offending value's dump, and that error is distinct from both
missing-writer errors. -/
theorem claim_c8 :
    (∀ (mapping : Registry) (dump : Str) (rest : List DescArg) (acc : SrcDesc),
        descGo mapping (DescArg.other dump :: rest) acc
          = .error (.invalidArgument dump))
    ∧ (∀ (dump : Str) (n : ASTNode),
        WriteError.invalidArgument dump ≠ WriteError.missingWriter n)
    ∧ (∀ (dump : Str) (yn : YulNode),
        WriteError.invalidArgument dump ≠ WriteError.missingYulWriter yn) := by
  refine ⟨fun mapping dump rest acc => rfl, fun dump n => by simp, fun dump yn => by simp⟩

/-- C9: the flattening algorithm is pure given its input: on a fresh empty
map its text output and its map output are each a function of the description
alone (`flatText` and the fold of the recorded entries), so flattening the
same description twice, each time with a fresh empty map, necessarily yields
identical text and structurally identical maps. -/
theorem claim_c9 (d : SrcDesc) :
    (descToSourceString d []).1 = flatText d
    ∧ (descToSourceString d []).2 = mapSetAll [] (occs d 0) := by
  simp [descToSourceString_eq]

/-- C10: flattening is frame-preserving on the source map: a pre-populated
entry whose key node has no association entry in the description looks up
unchanged afterwards, the generated text does not depend on the map's prior
contents, and `write` passes the caller's map through to the flattening of
the built description. -/
theorem claim_c10 (d : SrcDesc) (m0 m0' : SrcRangeMap) (n : ASTNode)
    (h : n ∉ (occs d 0).map (fun o => o.1)) :
    mapGet (descToSourceString d m0).2 n = mapGet m0 n
    ∧ (descToSourceString d m0).1 = (descToSourceString d m0').1
    ∧ ∀ (mapping : Registry) (node : ASTNode) (d2 : SrcDesc),
        desc mapping [DescArg.node node] = .ok d2 →
          write mapping node m0 = .ok (descToSourceString d2 m0) := by
  refine ⟨?_, by simp [descToSourceString_eq], ?_⟩
  · rw [descToSourceString_eq]
    refine mapGet_mapSetAll_ne (occs d 0) m0 n ?_
    intro o ho heq
    exact h (heq ▸ List.mem_map_of_mem (fun o => o.1) ho)
  · intro mapping node d2 hd
    unfold write
    rw [hd]

/-- Witness for C10: a pre-populated entry for a node absent from the
description survives flattening, and the text matches a run on an empty
map. -/
theorem claim_c10_witness :
    mapGet (descToSourceString descFoo [(nodeX, 5, 5)]).2 nodeX = some (5, 5)
    ∧ (descToSourceString descFoo [(nodeX, 5, 5)]).1
      = (descToSourceString descFoo []).1 := by
  have h := claim_c10 descFoo [(nodeX, 5, 5)] [] nodeX (by decide)
  exact ⟨h.1.trans (by decide), h.2.1⟩

end SolcWriter
